import Mathlib

/-!
Verification of the `astra-gui` point-group catalogue
(`src/astra_gui/utils/symmetry_module.py`) and the CAP-strength grouping
and extraction logic
(`src/astra_gui/time_independent/time_independent_notebook.py`).

The Python code is shallowly embedded: dictionaries become association
lists, Python exceptions and the process-terminating `CustomLogger.error`
(`src/astra_gui/utils/logger_module.py`, which calls `sys.exit(1)` after
logging) become `Except` error values, and `float` values become exact
rationals.
-/

namespace AstraGui

instance {ε α : Type} [DecidableEq ε] [DecidableEq α] : DecidableEq (Except ε α)
  | .ok a, .ok b =>
      if h : a = b then .isTrue (by rw [h]) else .isFalse (by intro hc; cases hc; exact h rfl)
  | .error e, .error f =>
      if h : e = f then .isTrue (by rw [h]) else .isFalse (by intro hc; cases hc; exact h rfl)
  | .ok _, .error _ => .isFalse (by intro hc; cases hc)
  | .error _, .ok _ => .isFalse (by intro hc; cases hc)

/-! ### Python string primitives (ASCII model)

The point-group labels and file paths handled by the code are ASCII, so
`str.capitalize` / `str.lower` are modelled on the ASCII range. -/

/-- ASCII model of Python `str.lower` on a single character. -/
def pyLowerChar (c : Char) : Char :=
  if 65 ≤ c.toNat ∧ c.toNat ≤ 90 then Char.ofNat (c.toNat + 32) else c

/-- ASCII model of Python `str.upper` on a single character. -/
def pyUpperChar (c : Char) : Char :=
  if 97 ≤ c.toNat ∧ c.toNat ≤ 122 then Char.ofNat (c.toNat - 32) else c

/-- Python `str.lower`. -/
def pyLower (s : String) : String := String.mk (s.data.map pyLowerChar)

/-- Python `str.capitalize`: first character uppercased, the rest lowercased. -/
def pyCapitalize (s : String) : String :=
  match s.data with
  | [] => ""
  | c :: cs => String.mk (pyUpperChar c :: cs.map pyLowerChar)

/-! ### The `Symmetry` class (`symmetry_module.py`) -/

/-- `Symmetry.GROUPS`: the supported point groups.  `'C2h'` is commented
out in the source tuple. -/
def GROUPS : List String := ["C1", "Cs", "C2", "Ci", "C2v", "D2", "D2h"]

/-- The dictionary inside `Symmetry.get_generators` (it still carries the
disabled `'C2h'` entry). -/
def generatorsDict : List (String × List String) :=
  [("C1", []),
   ("Cs", ["Z"]),
   ("C2", ["XY"]),
   ("Ci", ["XYZ"]),
   ("C2v", ["X", "Y"]),
   ("C2h", ["Z", "XY"]),
   ("D2", ["XZ", "YZ"]),
   ("D2h", ["X", "Y", "Z"])]

/-- The dictionary inside `Symmetry.get_irrep` (without the `'ALL'`
sentinel, which `get_irrep` prepends). -/
def irrepsDict : List (String × List String) :=
  [("C1", ["A"]),
   ("Cs", ["A'", "A''"]),
   ("C2", ["A", "B"]),
   ("Ci", ["Ag", "Au"]),
   ("C2v", ["A1", "B1", "B2", "A2"]),
   ("C2h", ["Ag", "Au", "Bu", "Bg"]),
   ("D2", ["A", "B3", "B2", "B1"]),
   ("D2h", ["Ag", "B3u", "B2u", "B1g", "B1u", "B2g", "B3g", "Au"])]

/-- The dictionary inside `Symmetry.get_dipoles`. -/
def dipolesDict : List (String × List String) :=
  [("C1", ["A", "A", "A"]),
   ("Cs", ["A'", "A'", "A''"]),
   ("C2", ["B", "B", "A"]),
   ("Ci", ["Au", "Au", "Au"]),
   ("C2v", ["B1", "B2", "A1"]),
   ("C2h", ["Bu", "Bu", "Au"]),
   ("D2", ["B3", "B2", "B1"]),
   ("D2h", ["B3u", "B2u", "B1u"])]

/-- The dictionary inside `Symmetry.get_mult_table`, transcribed verbatim
from the source — including the truncated last `D2` row (3 entries) and
the `D2h` first row exactly as written there. -/
def multTableDict : List (String × List (List String)) :=
  [("C1", [["A"]]),
   ("Cs", [["A'", "A''"], ["A''", "A'"]]),
   ("C2", [["A", "B"], ["B", "A"]]),
   ("Ci", [["Ag", "Au"], ["Au", "Ag"]]),
   ("C2v",
     [["A1", "B1", "B2", "A2"],
      ["B1", "A1", "A2", "B2"],
      ["B2", "A2", "A1", "B1"],
      ["A2", "B2", "B1", "A1"]]),
   ("C2h",
     [["Ag", "Au", "Bu", "Bg"],
      ["Au", "Ag", "Bg", "Bu"],
      ["Bu", "Bg", "Ag", "Au"],
      ["Bg", "Bu", "Au", "Ag"]]),
   ("D2",
     [["A", "B3", "B2", "B1"],
      ["B3", "A", "B1", "B2"],
      ["B2", "B1", "A", "B3"],
      ["B1", "B2", "B3"]]),
   ("D2h",
     [["Ag", "B3u", "B2u", "B1g", "B1u", "B2g", "B3u", "Au"],
      ["B3u", "Ag", "B1g", "B2u", "B2g", "B1u", "Au", "B3g"],
      ["B2u", "B1g", "Ag", "B3u", "B3g", "Au", "B1u", "B2g"],
      ["B1g", "B2u", "B3u", "Ag", "Au", "B3g", "B2g", "B1u"],
      ["B1u", "B2g", "B3g", "Au", "Ag", "B3u", "B2u", "B1g"],
      ["B2g", "B1u", "Au", "B3g", "B3u", "Ag", "B1g", "B2u"],
      ["B3g", "Au", "B1u", "B2g", "B2u", "B1g", "Ag", "B3u"],
      ["Au", "B3g", "B2g", "B1u", "B1g", "B2u", "B3u", "Ag"]])]

/-- Python `dict[key]` on a string-keyed dictionary (association list). -/
def dictGet {α : Type} (d : List (String × α)) (k : String) : Option α :=
  (d.find? (fun p => p.1 = k)).map (fun p => p.2)

/-- Errors raised by the symmetry catalogue, per the spec's taxonomy.
`invalidGroupError` models the process-terminating `logger.error`
(`CustomLogger.error` exits) on an unsupported group label. -/
inductive GroupError where
  | invalidGroupError
  | keyError
  deriving DecidableEq, Repr

/-- The constructed `Symmetry` object (its data fields). -/
structure Symmetry where
  group : String
  generators : List String
  irrep : List String
  dipole : List String
  mult_table : List (List String)
  deriving DecidableEq, Repr

/-- `Symmetry.__init__`: capitalize the label, report an invalid group
through the terminating logger, otherwise populate all fields from the
static dictionaries (`get_irrep` prepends the `'ALL'` sentinel). -/
def Symmetry.init (group : String) : Except GroupError Symmetry :=
  let g := pyCapitalize group
  if g ∈ GROUPS then
    match dictGet generatorsDict g, dictGet irrepsDict g,
          dictGet dipolesDict g, dictGet multTableDict g with
    | some gens, some irr, some dip, some tbl =>
        .ok ⟨g, gens, "ALL" :: irr, dip, tbl⟩
    | _, _, _, _ => .error .keyError
  else
    .error .invalidGroupError

/-- Errors raised by `Symmetry.mult`: `unknownIrrepError` models the
`ValueError` from `list.index` on an unknown label (the spec's
`UnknownIrrepError`), `indexError` an out-of-range table access. -/
inductive IrrepError where
  | unknownIrrepError
  | indexError
  deriving DecidableEq, Repr

/-- Python `list.index`, returning `none` where Python raises `ValueError`. -/
def pyIndex {α : Type} [DecidableEq α] (l : List α) (a : α) : Option Nat :=
  l.indexOf? a

/-- Python `list[i]` with an integer index: negative indices count from
the end; out-of-range access is `none` (Python `IndexError`). -/
def pyGetInt {α : Type} (l : List α) (i : Int) : Option α :=
  if 0 ≤ i then l.get? i.toNat
  else if 0 ≤ (l.length : Int) + i then l.get? ((l.length : Int) + i).toNat
  else none

/-- `Symmetry.mult`: look up each label's position in `self.irrep`
(which starts with `'ALL'`), subtract one, and index the multiplication
table with the (possibly negative) results. -/
def Symmetry.mult (s : Symmetry) (i_irrep j_irrep : String) :
    Except IrrepError String :=
  match pyIndex s.irrep i_irrep, pyIndex s.irrep j_irrep with
  | some i, some j =>
      match pyGetInt s.mult_table ((i : Int) - 1) with
      | some row =>
          match pyGetInt row ((j : Int) - 1) with
          | some v => .ok v
          | none => .error .indexError
      | none => .error .indexError
  | _, _ => .error .unknownIrrepError

/-- `itertools.combinations` on a list, by subset-generation
(lexicographic index) order. -/
def combinations {α : Type} : List α → Nat → List (List α)
  | _, 0 => [[]]
  | [], _ + 1 => []
  | x :: xs, r + 1 => (combinations xs r).map (fun c => x :: c) ++ combinations xs (r + 1)

/-- The iteration order of a `collections.Counter` built from a character
list: keys in first-occurrence order. -/
def counterKeys (cs : List Char) : List Char :=
  cs.foldl (fun acc c => if c ∈ acc then acc else acc ++ [c]) []

/-- The body of `Symmetry.get_all_symmetry_elements` for one combination:
join the generators, count characters, and keep those with odd
multiplicity in `Counter` (first-occurrence) order. -/
def xorElement (comb : List String) : String :=
  let cs := (comb.map String.data).flatten
  String.mk ((counterKeys cs).filter (fun c => cs.count c % 2 = 1))

/-- `Symmetry.get_all_symmetry_elements`: all combinations of the
generators of sizes `1 .. len(generators)`, each reduced by `xorElement`. -/
def Symmetry.get_all_symmetry_elements (s : Symmetry) : List String :=
  ((List.range s.generators.length).map
    (fun k => (combinations s.generators (k + 1)).map xorElement)).flatten

/-- `Symmetry(g).mult(a, b)` as a single query: `none` when the group
itself is rejected. -/
def symMult (g a b : String) : Option (Except IrrepError String) :=
  (Symmetry.init g).toOption.map (fun s => s.mult a b)

/-- `Symmetry(g).get_all_symmetry_elements()` as a single query. -/
def symElements (g : String) : Option (List String) :=
  (Symmetry.init g).toOption.map Symmetry.get_all_symmetry_elements

/-- `len(irreps) - 1` for a supported group label. -/
def irrepCount (g : String) : Option Nat :=
  (Symmetry.init g).toOption.map (fun s => s.irrep.length - 1)

/-- `2 ** len(generators)` for a supported group label. -/
def genPow (g : String) : Option Nat :=
  (Symmetry.init g).toOption.map (fun s => 2 ^ s.generators.length)

/-- Symmetry elements as the spec describes them: for every non-empty
subset of the generators (by increasing size, then subset-generation
order), keep exactly the axis letters occurring an odd number of times
across the subset. -/
def specSymmetryElements (gens : List String) : List String :=
  ((List.range gens.length).map
    (fun k => (combinations gens (k + 1)).map
      (fun sub =>
        String.mk (['X', 'Y', 'Z'].filter
          (fun c => (sub.map String.data).flatten.count c % 2 = 1))))).flatten

/-! ### Character-case lemmas for the normalization claims -/

theorem toNat_ofNat_small (n : Nat) (h : n < 55296) : (Char.ofNat n).toNat = n := by
  have hv : n.isValidChar := Or.inl h
  simp only [Char.ofNat, hv, dif_pos]
  simp [Char.ofNatAux, Char.toNat, UInt32.toNat]

theorem pyUpperChar_pyLowerChar (c : Char) :
    pyUpperChar (pyLowerChar c) = pyUpperChar c := by
  unfold pyLowerChar pyUpperChar
  by_cases h : 65 ≤ c.toNat ∧ c.toNat ≤ 90
  · rw [if_pos h]
    have ht : (Char.ofNat (c.toNat + 32)).toNat = c.toNat + 32 :=
      toNat_ofNat_small _ (by omega)
    rw [if_pos (by omega), ht]
    have : c.toNat + 32 - 32 = c.toNat := by omega
    rw [this, Char.ofNat_toNat, if_neg (by omega)]
  · rw [if_neg h]

theorem pyCapitalize_of_pyLower_eq (s t : String) (h : pyLower s = pyLower t) :
    pyCapitalize s = pyCapitalize t := by
  have hd : s.data.map pyLowerChar = t.data.map pyLowerChar := congrArg String.data h
  unfold pyCapitalize
  cases hs : s.data with
  | nil =>
      cases ht : t.data with
      | nil => rfl
      | cons d ds => rw [hs, ht] at hd; simp at hd
  | cons c cs =>
      cases ht : t.data with
      | nil => rw [hs, ht] at hd; simp at hd
      | cons d ds =>
          rw [hs, ht] at hd
          simp only [List.map_cons, List.cons.injEq] at hd
          have hh : pyUpperChar c = pyUpperChar d := by
            rw [← pyUpperChar_pyLowerChar c, hd.1, pyUpperChar_pyLowerChar d]
          show String.mk (pyUpperChar c :: cs.map pyLowerChar)
            = String.mk (pyUpperChar d :: ds.map pyLowerChar)
          rw [hh, hd.2]

/-! ### Claim theorems for the point-group catalogue -/

/-- C1: the spec demands `multiply` be commutative with the first true
irrep as two-sided identity on every supported group, and the spec's data
model requires symmetric tables whose rows are permutations of the irrep
set.  The code's `D2h` table has `B3u` where `B3g` belongs (row `Ag`,
column `B3g`), so `mult('Ag','B3g') = 'B3u'` while
`mult('B3g','Ag') = 'B3g'`: commutativity and the identity law both fail;
the truncated `D2` row additionally makes `mult('B1','B1')` raise
`IndexError` instead of returning the identity irrep. -/
theorem mult_comm_identity_code_bug :
    symMult "D2h" "Ag" "B3g" = some (.ok "B3u")
      ∧ symMult "D2h" "B3g" "Ag" = some (.ok "B3g")
      ∧ symMult "D2" "B1" "B1" = some (.error .indexError) := by
  refine ⟨by decide, by decide, by decide⟩

/-- C2: any label whose capitalize-normalized form is not one of the 7
supported groups is rejected with the invalid-group error (the
process-terminating `logger.error`), never silently turned into a
`Symmetry` value; in particular the disabled group `C2h`. -/
theorem lookup_invalid_group_rejected :
    (∀ s : String, pyCapitalize s ∉ GROUPS →
        Symmetry.init s = .error .invalidGroupError)
      ∧ Symmetry.init "C2h" = .error .invalidGroupError := by
  constructor
  · intro s h
    unfold Symmetry.init
    simp only [if_neg h]
  · decide

/-- Witness for C2 at the concrete label `"C2h"`. -/
theorem lookup_invalid_group_rejected_witness :
    Symmetry.init "C2h" = .error .invalidGroupError :=
  lookup_invalid_group_rejected.1 "C2h" (by decide)

/-- C4: the spec demands `UnknownIrrepError` whenever either label is not
a true irrep of the group — including the `ALL` sentinel itself.  Labels
foreign to the group do fail that way, but `'ALL'` sits at position 0 of
`self.irrep`, so `index('ALL') - 1 = -1` and Python's negative indexing
silently returns an entry of the *last* table row instead of failing:
`mult('ALL','A1')` on `C2v` returns `'A2'`. -/
theorem mult_all_sentinel_code_bug :
    symMult "C2v" "Q" "A1" = some (.error .unknownIrrepError)
      ∧ symMult "C2v" "A1" "Q" = some (.error .unknownIrrepError)
      ∧ symMult "C2v" "ALL" "A1" = some (.ok "A2")
      ∧ symMult "C2v" "A1" "ALL" = some (.ok "A2") := by
  refine ⟨by decide, by decide, by decide, by decide⟩

/-- C7: for every supported group label, the irrep list minus the `ALL`
sentinel has exactly `2 ^ len(generators)` entries. -/
theorem irrep_count_eq_two_pow_generators :
    ∀ g ∈ GROUPS, irrepCount g = genPow g ∧ (irrepCount g).isSome := by
  decide

/-- Witness for C7 at the concrete group `"D2h"`. -/
theorem irrep_count_eq_two_pow_generators_witness :
    irrepCount "D2h" = genPow "D2h" ∧ (irrepCount "D2h").isSome :=
  irrep_count_eq_two_pow_generators "D2h" (by decide)

/-- C8: lookup is case-insensitive under capitalize normalization: any
two spellings with the same lowercase form produce identical `Symmetry`
results, and in particular `"c2v"`, `"C2v"`, `"C2V"` all yield the same
(successful) `C2v` group. -/
theorem lookup_case_insensitive :
    (∀ s t : String, pyLower s = pyLower t → Symmetry.init s = Symmetry.init t)
      ∧ Symmetry.init "c2v" = Symmetry.init "C2v"
      ∧ Symmetry.init "C2v" = Symmetry.init "C2V"
      ∧ (Symmetry.init "c2v").map (fun s => s.group) = .ok "C2v" := by
  refine ⟨?_, by decide, by decide, by decide⟩
  intro s t h
  unfold Symmetry.init
  rw [pyCapitalize_of_pyLower_eq s t h]

/-- Witness for C8 applying the general part at `"c2v"` and `"C2V"`. -/
theorem lookup_case_insensitive_witness :
    Symmetry.init "c2v" = Symmetry.init "C2V" :=
  lookup_case_insensitive.1 "c2v" "C2V" (by decide)

/-- C9: on every supported group, `get_all_symmetry_elements` returns,
for each non-empty generator subset in size-then-generation order,
exactly the axis letters with odd multiplicity across the subset
(`specSymmetryElements`); for `D2` that is `[XZ, YZ, XY]` and for `C1`
the empty list. -/
theorem symmetry_elements_xor :
    (∀ g ∈ GROUPS,
        symElements g
          = (Symmetry.init g).toOption.map (fun s => specSymmetryElements s.generators))
      ∧ symElements "D2" = some ["XZ", "YZ", "XY"]
      ∧ symElements "C1" = some [] := by
  refine ⟨by decide, by decide, by decide⟩

/-- Witness for C9 applying the general part at `"D2h"`. -/
theorem symmetry_elements_xor_witness :
    symElements "D2h"
      = (Symmetry.init "D2h").toOption.map (fun s => specSymmetryElements s.generators) :=
  symmetry_elements_xor.1 "D2h" (by decide)

/-! ### CAP-strength grouping
(`TimeIndependentNotebook.group_cap_strengths_by_sym`)

The Python `CapStrengths` dictionary (`dict[str, list[CapStrengthRow]]`)
is modelled as an insertion-ordered association list; the record rows are
kept generic in a type `α` with decidable (value) equality, matching the
`==`-based membership tests of the source. -/

/-- `CapStrengths`: a symmetry-labelled dictionary of record lists. -/
abbrev CapStrengths (α : Type) : Type := List (String × List α)

variable {α : Type} [DecidableEq α]

/-- The value a key holds in a `CapStrengths` dictionary, defaulting to
the empty list for an absent key. -/
def bucketOf (m : CapStrengths α) (k : String) : List α :=
  (dictGet m k).getD []

/-- `if value not in bucket: bucket.append(value)`. -/
def addIfAbsent (l : List α) (r : α) : List α :=
  if r ∈ l then l else l ++ [r]

/-- `other_sym_strengths.setdefault(i_sym, [])` followed by the guarded
append of the record `r`. -/
def addOther (oth : CapStrengths α) (s : String) (r : α) : CapStrengths α :=
  match oth with
  | [] => [(s, [r])]
  | (k, l) :: rest =>
      if k = s then (k, addIfAbsent l r) :: rest else (k, l) :: addOther rest s r

/-- The inner `for j_sym, j_strengths_list in cap_strengths.items()` loop
of `group_cap_strengths_by_sym` for a single record `r` of symmetry
`i_sym`: the state carries the `shared_across_all` flag and the
`other_sym_strengths` buckets, which are updated at every symmetry whose
list misses `r`. -/
def jLoop (i_sym : String) (r : α) (st : Bool × CapStrengths α)
    (js : CapStrengths α) : Bool × CapStrengths α :=
  js.foldl
    (fun st j =>
      if j.1 = i_sym then st
      else if r ∈ j.2 then st
      else (false, addOther st.2 i_sym r))
    st

/-- The body of the two outer loops for one `(i_sym, r)` pair: run the
inner loop, then append `r` to `all_strengths` when it is shared and not
yet present. -/
def recordStep (cap : CapStrengths α) (i_sym : String)
    (acc : List α × CapStrengths α) (r : α) : List α × CapStrengths α :=
  let st := jLoop i_sym r (true, acc.2) cap
  (if st.1 ∧ r ∉ acc.1 then acc.1 ++ [r] else acc.1, st.2)

/-- The two nested `for` loops of `group_cap_strengths_by_sym`, producing
`(all_strengths, other_sym_strengths)`. -/
def groupPass (cap : CapStrengths α) : List α × CapStrengths α :=
  cap.foldl (fun acc p => p.2.foldl (recordStep cap p.1) acc) ([], [])

/-- Python's `d1 | d2` dictionary merge: keys of `d1` in order (values
taken from `d2` when the key is also there), then the keys of `d2` not in
`d1`, in order. -/
def pyDictMerge (d1 d2 : CapStrengths α) : CapStrengths α :=
  d1.map (fun q => (q.1, (dictGet d2 q.1).getD q.2))
    ++ d2.filter (fun q => (dictGet d1 q.1).isNone)

/-- `TimeIndependentNotebook.group_cap_strengths_by_sym`. -/
def group_cap_strengths_by_sym (cap : CapStrengths α) (mult : String) :
    CapStrengths α :=
  let res := groupPass cap
  pyDictMerge [(mult ++ "ALL", res.1)] res.2

example :
    group_cap_strengths_by_sym
      [("1A1", [["1e-3", "2e-3"], ["9e-4", "0"]]), ("1B1", [["1e-3", "2e-3"]])] "1"
      = [("1ALL", [["1e-3", "2e-3"]]), ("1A1", [["9e-4", "0"]])] := by decide

example :
    group_cap_strengths_by_sym ([] : CapStrengths (List String)) "1"
      = [("1ALL", [])] := by decide

example :
    group_cap_strengths_by_sym
      [("1ALL", [["1e-3", "2e-3"]]), ("1A1", [["9e-4", "0"]])] "1"
      = [("1ALL", [["1e-3", "2e-3"]]), ("1A1", [["9e-4", "0"]])] := by decide

/-- The `shared_across_all` predicate the inner loop computes: every
symmetry of the input either is `i_sym` itself or lists the record. -/
def sharedB (js : CapStrengths α) (i_sym : String) (r : α) : Bool :=
  js.all (fun q => decide (q.1 = i_sym) || decide (r ∈ q.2))

theorem mem_addIfAbsent (l : List α) (r x : α) :
    x ∈ addIfAbsent l r ↔ x ∈ l ∨ x = r := by
  unfold addIfAbsent
  split
  · rename_i h
    constructor
    · exact Or.inl
    · rintro (hx | rfl) <;> [exact hx; exact h]
  · simp [List.mem_append]

theorem self_mem_addIfAbsent (l : List α) (r : α) : r ∈ addIfAbsent l r := by
  rw [mem_addIfAbsent]; exact Or.inr rfl

theorem nodup_addIfAbsent (l : List α) (r : α) (h : l.Nodup) :
    (addIfAbsent l r).Nodup := by
  unfold addIfAbsent
  split
  · exact h
  · rename_i hr
    simpa [List.nodup_append, h] using hr

theorem addIfAbsent_idem (l : List α) (r : α) :
    addIfAbsent (addIfAbsent l r) r = addIfAbsent l r := by
  unfold addIfAbsent
  split
  · rename_i h
    simp [h]
  · rename_i h
    rw [if_pos (by simp)]

theorem addOther_idem (oth : CapStrengths α) (s : String) (r : α) :
    addOther (addOther oth s r) s r = addOther oth s r := by
  induction oth with
  | nil => simp [addOther, addIfAbsent]
  | cons p rest ih =>
      obtain ⟨k, l⟩ := p
      by_cases hk : k = s
      · simp [addOther, hk, addIfAbsent_idem]
      · simp [addOther, hk, ih]

theorem dictGet_nil {β : Type} (k : String) : dictGet ([] : List (String × β)) k = none := rfl

theorem dictGet_cons {β : Type} (k' : String) (v : β) (rest : List (String × β))
    (k : String) :
    dictGet ((k', v) :: rest) k = if k' = k then some v else dictGet rest k := by
  by_cases h : k' = k <;> simp [dictGet, List.find?_cons, h]

theorem dictGet_addOther_ne (oth : CapStrengths α) (s : String) (r : α)
    (k : String) (hk : k ≠ s) : dictGet (addOther oth s r) k = dictGet oth k := by
  induction oth with
  | nil => simp [addOther, dictGet_cons, dictGet_nil, Ne.symm hk]
  | cons p rest ih =>
      obtain ⟨k', l⟩ := p
      by_cases hk' : k' = s
      · subst hk'
        simp [addOther, dictGet_cons, Ne.symm hk]
      · by_cases hkk : k' = k
        · subst hkk
          simp [addOther, hk', dictGet_cons]
        · simp [addOther, hk', dictGet_cons, hkk, ih]

theorem bucketOf_addOther (oth : CapStrengths α) (s : String) (r : α) (k : String) :
    bucketOf (addOther oth s r) k
      = if k = s then addIfAbsent (bucketOf oth s) r else bucketOf oth k := by
  by_cases hk : k = s
  · subst hk
    rw [if_pos rfl]
    induction oth with
    | nil => simp [addOther, bucketOf, dictGet_cons, dictGet_nil, addIfAbsent]
    | cons p rest ih =>
        obtain ⟨k', l⟩ := p
        by_cases hk' : k' = k
        · subst hk'
          simp [addOther, bucketOf, dictGet_cons]
        · simp only [addOther, if_neg hk', bucketOf, dictGet_cons, if_neg hk']
          simpa [bucketOf] using ih
  · rw [if_neg hk, bucketOf, dictGet_addOther_ne oth s r k hk]; rfl

theorem jLoop_cons (i_sym : String) (r : α) (st : Bool × CapStrengths α)
    (j : String × List α) (js : CapStrengths α) :
    jLoop i_sym r st (j :: js)
      = jLoop i_sym r
          (if j.1 = i_sym then st else if r ∈ j.2 then st
           else (false, addOther st.2 i_sym r)) js := rfl

theorem sharedB_cons (j : String × List α) (js : CapStrengths α)
    (i_sym : String) (r : α) :
    sharedB (j :: js) i_sym r
      = ((decide (j.1 = i_sym) || decide (r ∈ j.2)) && sharedB js i_sym r) := by
  simp [sharedB]

theorem jLoop_eq (i_sym : String) (r : α) (js : CapStrengths α) :
    ∀ (b : Bool) (oth : CapStrengths α),
      jLoop i_sym r (b, oth) js
        = (b && sharedB js i_sym r,
           if sharedB js i_sym r then oth else addOther oth i_sym r) := by
  induction js with
  | nil => intro b oth; simp [jLoop, sharedB]
  | cons j js ih =>
      intro b oth
      rw [jLoop_cons, sharedB_cons]
      by_cases h1 : j.1 = i_sym
      · rw [if_pos h1, ih]
        simp [h1]
      · rw [if_neg h1]
        by_cases h2 : r ∈ j.2
        · rw [if_pos h2, ih]
          simp [h1, h2]
        · rw [if_neg h2]
          show jLoop i_sym r (false, addOther oth i_sym r) js = _
          rw [ih]
          have hb : (decide (j.1 = i_sym) || decide (r ∈ j.2)) = false := by
            simp [h1, h2]
          rw [hb]
          simp only [Bool.false_and, Bool.and_false]
          by_cases h3 : sharedB js i_sym r
          · simp [h3, addOther_idem]
          · simp only [Bool.not_eq_true] at h3
            simp [h3, addOther_idem]

theorem recordStep_eq (cap : CapStrengths α) (i_sym : String)
    (acc : List α × CapStrengths α) (r : α) :
    recordStep cap i_sym acc r
      = (if sharedB cap i_sym r ∧ r ∉ acc.1 then acc.1 ++ [r] else acc.1,
         if sharedB cap i_sym r then acc.2 else addOther acc.2 i_sym r) := by
  unfold recordStep
  rw [jLoop_eq]
  simp

theorem sharedB_eq_true_iff (js : CapStrengths α) (i_sym : String) (r : α) :
    sharedB js i_sym r = true ↔ ∀ q ∈ js, q.1 = i_sym ∨ r ∈ q.2 := by
  simp [sharedB, List.all_eq_true]

theorem mem_fst_recordStep (cap : CapStrengths α) (i_sym : String)
    (acc : List α × CapStrengths α) (r x : α) :
    x ∈ (recordStep cap i_sym acc r).1
      ↔ x ∈ acc.1 ∨ (x = r ∧ sharedB cap i_sym r = true) := by
  rw [recordStep_eq]
  dsimp only
  by_cases hs : sharedB cap i_sym r
  · by_cases hin : r ∈ acc.1
    · rw [if_neg (by simp [hin])]
      exact ⟨Or.inl, fun h => h.elim id (fun hx => hx.1 ▸ hin)⟩
    · rw [if_pos ⟨hs, hin⟩]
      simp [hs]
  · simp only [Bool.not_eq_true] at hs
    rw [if_neg (by simp [hs])]
    simp [hs]

theorem mem_bucket_recordStep (cap : CapStrengths α) (i_sym : String)
    (acc : List α × CapStrengths α) (r x : α) (k : String) :
    x ∈ bucketOf (recordStep cap i_sym acc r).2 k
      ↔ x ∈ bucketOf acc.2 k ∨ (k = i_sym ∧ x = r ∧ sharedB cap i_sym r = false) := by
  rw [recordStep_eq]
  dsimp only
  by_cases hs : sharedB cap i_sym r
  · simp [hs]
  · simp only [Bool.not_eq_true] at hs
    rw [if_neg (by simp [hs]), bucketOf_addOther]
    by_cases hk : k = i_sym
    · subst hk
      simp [mem_addIfAbsent, hs]
    · simp [hk]

theorem mem_fst_foldRecords (cap : CapStrengths α) (i_sym : String) (rs : List α) :
    ∀ (acc : List α × CapStrengths α) (x : α),
      x ∈ (rs.foldl (recordStep cap i_sym) acc).1
        ↔ x ∈ acc.1 ∨ (x ∈ rs ∧ sharedB cap i_sym x = true) := by
  induction rs with
  | nil => simp
  | cons r rs ih =>
      intro acc x
      rw [List.foldl_cons, ih, mem_fst_recordStep]
      constructor
      · rintro ((ha | ⟨rfl, hS⟩) | ⟨hm, hS⟩)
        · exact Or.inl ha
        · exact Or.inr ⟨List.mem_cons_self _ _, hS⟩
        · exact Or.inr ⟨List.mem_cons_of_mem _ hm, hS⟩
      · rintro (ha | ⟨hm, hS⟩)
        · exact Or.inl (Or.inl ha)
        · rcases List.mem_cons.mp hm with rfl | hm'
          · exact Or.inl (Or.inr ⟨rfl, hS⟩)
          · exact Or.inr ⟨hm', hS⟩

theorem mem_bucket_foldRecords (cap : CapStrengths α) (i_sym : String) (rs : List α) :
    ∀ (acc : List α × CapStrengths α) (x : α) (k : String),
      x ∈ bucketOf (rs.foldl (recordStep cap i_sym) acc).2 k
        ↔ x ∈ bucketOf acc.2 k ∨ (k = i_sym ∧ x ∈ rs ∧ sharedB cap i_sym x = false) := by
  induction rs with
  | nil => simp
  | cons r rs ih =>
      intro acc x k
      rw [List.foldl_cons, ih, mem_bucket_recordStep]
      constructor
      · rintro ((ha | ⟨rfl, rfl, hS⟩) | ⟨rfl, hm, hS⟩)
        · exact Or.inl ha
        · exact Or.inr ⟨rfl, List.mem_cons_self _ _, hS⟩
        · exact Or.inr ⟨rfl, List.mem_cons_of_mem _ hm, hS⟩
      · rintro (ha | ⟨rfl, hm, hS⟩)
        · exact Or.inl (Or.inl ha)
        · rcases List.mem_cons.mp hm with rfl | hm'
          · exact Or.inl (Or.inr ⟨rfl, rfl, hS⟩)
          · exact Or.inr ⟨rfl, hm', hS⟩

theorem dictGet_foldRecords_ne (cap : CapStrengths α) (i_sym : String) (rs : List α) :
    ∀ (acc : List α × CapStrengths α) (k : String), k ≠ i_sym →
      dictGet (rs.foldl (recordStep cap i_sym) acc).2 k = dictGet acc.2 k := by
  induction rs with
  | nil => intro acc k _; rfl
  | cons r rs ih =>
      intro acc k hk
      rw [List.foldl_cons, ih _ _ hk, recordStep_eq]
      dsimp only
      by_cases hs : sharedB cap i_sym r
      · rw [if_pos hs]
      · rw [if_neg hs, dictGet_addOther_ne _ _ _ _ hk]

theorem nodup_fst_foldRecords (cap : CapStrengths α) (i_sym : String) (rs : List α) :
    ∀ (acc : List α × CapStrengths α), acc.1.Nodup →
      (rs.foldl (recordStep cap i_sym) acc).1.Nodup := by
  induction rs with
  | nil => intro acc h; exact h
  | cons r rs ih =>
      intro acc h
      rw [List.foldl_cons]
      apply ih
      rw [recordStep_eq]
      dsimp only
      split
      · rename_i hc
        simp [List.nodup_append, h, hc.2]
      · exact h

theorem nodup_bucket_foldRecords (cap : CapStrengths α) (i_sym : String) (rs : List α) :
    ∀ (acc : List α × CapStrengths α), (∀ k, (bucketOf acc.2 k).Nodup) →
      ∀ k, (bucketOf (rs.foldl (recordStep cap i_sym) acc).2 k).Nodup := by
  induction rs with
  | nil => intro acc h; exact h
  | cons r rs ih =>
      intro acc h
      rw [List.foldl_cons]
      apply ih
      intro k
      rw [recordStep_eq]
      dsimp only
      by_cases hs : sharedB cap i_sym r
      · rw [if_pos hs]; exact h k
      · rw [if_neg hs, bucketOf_addOther]
        by_cases hk : k = i_sym
        · rw [if_pos hk]
          exact nodup_addIfAbsent _ _ (h i_sym)
        · rw [if_neg hk]
          exact h k

/-- The body of the outer `for i_sym, i_strengths_list in
cap_strengths.items()` loop: process one symmetry's record list. -/
def symStep (cap : CapStrengths α) (acc : List α × CapStrengths α)
    (p : String × List α) : List α × CapStrengths α :=
  p.2.foldl (recordStep cap p.1) acc

theorem groupPass_eq_foldl (cap : CapStrengths α) :
    groupPass cap = cap.foldl (symStep cap) ([], []) := rfl

theorem mem_fst_symFold (cap : CapStrengths α) (qs : CapStrengths α) :
    ∀ (acc : List α × CapStrengths α) (x : α),
      x ∈ (qs.foldl (symStep cap) acc).1
        ↔ x ∈ acc.1 ∨ ∃ q ∈ qs, x ∈ q.2 ∧ sharedB cap q.1 x = true := by
  induction qs with
  | nil => simp
  | cons q qs ih =>
      intro acc x
      rw [List.foldl_cons, ih]
      show (x ∈ (q.2.foldl (recordStep cap q.1) acc).1 ∨ _) ↔ _
      rw [mem_fst_foldRecords]
      constructor
      · rintro ((ha | ⟨hm, hS⟩) | ⟨q', hq', hm', hS'⟩)
        · exact Or.inl ha
        · exact Or.inr ⟨q, List.mem_cons_self _ _, hm, hS⟩
        · exact Or.inr ⟨q', List.mem_cons_of_mem _ hq', hm', hS'⟩
      · rintro (ha | ⟨q', hq', hm', hS'⟩)
        · exact Or.inl (Or.inl ha)
        · rcases List.mem_cons.mp hq' with rfl | hq''
          · exact Or.inl (Or.inr ⟨hm', hS'⟩)
          · exact Or.inr ⟨q', hq'', hm', hS'⟩

theorem mem_bucket_symFold (cap : CapStrengths α) (qs : CapStrengths α) :
    ∀ (acc : List α × CapStrengths α) (x : α) (k : String),
      x ∈ bucketOf (qs.foldl (symStep cap) acc).2 k
        ↔ x ∈ bucketOf acc.2 k
            ∨ ∃ l, (k, l) ∈ qs ∧ x ∈ l ∧ sharedB cap k x = false := by
  induction qs with
  | nil => simp
  | cons q qs ih =>
      intro acc x k
      rw [List.foldl_cons, ih]
      show (x ∈ bucketOf (q.2.foldl (recordStep cap q.1) acc).2 k ∨ _) ↔ _
      rw [mem_bucket_foldRecords]
      constructor
      · rintro ((ha | ⟨rfl, hm, hS⟩) | ⟨l, hl, hm', hS'⟩)
        · exact Or.inl ha
        · exact Or.inr ⟨q.2, by simp, hm, hS⟩
        · exact Or.inr ⟨l, List.mem_cons_of_mem _ hl, hm', hS'⟩
      · rintro (ha | ⟨l, hl, hm', hS'⟩)
        · exact Or.inl (Or.inl ha)
        · rcases List.mem_cons.mp hl with hq | hl'
          · have hk1 : k = q.1 := congrArg Prod.fst hq
            have hl1 : l = q.2 := congrArg Prod.snd hq
            subst hk1
            subst hl1
            exact Or.inl (Or.inr ⟨rfl, hm', hS'⟩)
          · exact Or.inr ⟨l, hl', hm', hS'⟩

theorem dictGet_symFold_notmem (cap : CapStrengths α) (qs : CapStrengths α) :
    ∀ (acc : List α × CapStrengths α) (k : String), k ∉ qs.map Prod.fst →
      dictGet (qs.foldl (symStep cap) acc).2 k = dictGet acc.2 k := by
  induction qs with
  | nil => intro acc k _; rfl
  | cons q qs ih =>
      intro acc k hk
      simp only [List.map_cons, List.mem_cons, not_or] at hk
      rw [List.foldl_cons, ih _ _ hk.2]
      exact dictGet_foldRecords_ne cap q.1 q.2 acc k hk.1

theorem nodup_fst_symFold (cap : CapStrengths α) (qs : CapStrengths α) :
    ∀ (acc : List α × CapStrengths α), acc.1.Nodup →
      (qs.foldl (symStep cap) acc).1.Nodup := by
  induction qs with
  | nil => intro acc h; exact h
  | cons q qs ih =>
      intro acc h
      rw [List.foldl_cons]
      exact ih _ (nodup_fst_foldRecords cap q.1 q.2 acc h)

theorem nodup_bucket_symFold (cap : CapStrengths α) (qs : CapStrengths α) :
    ∀ (acc : List α × CapStrengths α), (∀ k, (bucketOf acc.2 k).Nodup) →
      ∀ k, (bucketOf (qs.foldl (symStep cap) acc).2 k).Nodup := by
  induction qs with
  | nil => intro acc h; exact h
  | cons q qs ih =>
      intro acc h
      rw [List.foldl_cons]
      exact ih _ (nodup_bucket_foldRecords cap q.1 q.2 acc h)

theorem pairs_addOther {P : String → α → Prop} (oth : CapStrengths α)
    (s : String) (r : α)
    (hoth : ∀ k l, (k, l) ∈ oth → ∀ x ∈ l, P k x) (hr : P s r) :
    ∀ k l, (k, l) ∈ addOther oth s r → ∀ x ∈ l, P k x := by
  induction oth with
  | nil =>
      intro k l hkl x hx
      simp only [addOther, List.mem_singleton, Prod.mk.injEq] at hkl
      obtain ⟨rfl, rfl⟩ := hkl
      simp only [List.mem_singleton] at hx
      exact hx ▸ hr
  | cons p rest ih =>
      obtain ⟨k', l'⟩ := p
      intro k l hkl x hx
      by_cases hk' : k' = s
      · subst hk'
        rw [show addOther ((k', l') :: rest) k' r = (k', addIfAbsent l' r) :: rest from by
          simp [addOther]] at hkl
        simp only [List.mem_cons, Prod.mk.injEq] at hkl
        rcases hkl with ⟨hk1, hl1⟩ | hrest
        · subst hk1
          subst hl1
          rcases (mem_addIfAbsent _ _ _).mp hx with hx' | hxr
          · exact hoth _ l' (List.mem_cons_self _ _) x hx'
          · exact hxr ▸ hr
        · exact hoth _ _ (List.mem_cons_of_mem _ hrest) x hx
      · simp only [addOther, if_neg hk', List.mem_cons, Prod.mk.injEq] at hkl
        rcases hkl with ⟨hk1, hl1⟩ | hrest
        · subst hk1
          subst hl1
          exact hoth _ _ (List.mem_cons_self _ _) x hx
        · exact ih (fun k0 l0 h0 => hoth k0 l0 (List.mem_cons_of_mem _ h0)) _ _ hrest x hx

theorem pairs_foldRecords_not_shared (cap : CapStrengths α) (i_sym : String)
    (rs : List α) :
    ∀ (acc : List α × CapStrengths α),
      (∀ k l, (k, l) ∈ acc.2 → ∀ x ∈ l, sharedB cap k x = false) →
      ∀ k l, (k, l) ∈ (rs.foldl (recordStep cap i_sym) acc).2 → ∀ x ∈ l,
        sharedB cap k x = false := by
  induction rs with
  | nil => intro acc h; exact h
  | cons r rs ih =>
      intro acc h
      rw [List.foldl_cons]
      apply ih
      rw [recordStep_eq]
      dsimp only
      by_cases hs : sharedB cap i_sym r
      · rw [if_pos hs]; exact h
      · rw [if_neg hs]
        simp only [Bool.not_eq_true] at hs
        exact pairs_addOther acc.2 i_sym r h hs

theorem pairs_symFold_not_shared (cap : CapStrengths α) (qs : CapStrengths α) :
    ∀ (acc : List α × CapStrengths α),
      (∀ k l, (k, l) ∈ acc.2 → ∀ x ∈ l, sharedB cap k x = false) →
      ∀ k l, (k, l) ∈ (qs.foldl (symStep cap) acc).2 → ∀ x ∈ l,
        sharedB cap k x = false := by
  induction qs with
  | nil => intro acc h; exact h
  | cons q qs ih =>
      intro acc h
      rw [List.foldl_cons]
      exact ih _ (pairs_foldRecords_not_shared cap q.1 q.2 acc h)

/-! ### The dictionary merge `new_cap_strengths | other_sym_strengths` -/

theorem dictGet_singleton {β : Type} (kAll : String) (a : β) (k : String) :
    dictGet [(kAll, a)] k = if kAll = k then some a else none := by
  rw [dictGet_cons, dictGet_nil]

omit [DecidableEq α] in
theorem dictGet_filter_singleton (kAll : String) (a : List α) (oth : CapStrengths α)
    (k : String) (hk : kAll ≠ k) :
    dictGet (oth.filter (fun q => (dictGet [(kAll, a)] q.1).isNone)) k
      = dictGet oth k := by
  induction oth with
  | nil => rfl
  | cons q rest ih =>
      obtain ⟨k', l'⟩ := q
      by_cases hka : kAll = k'
      · subst hka
        rw [show ((kAll, l') :: rest).filter (fun q => (dictGet [(kAll, a)] q.1).isNone)
              = rest.filter (fun q => (dictGet [(kAll, a)] q.1).isNone) from by
            simp [List.filter_cons, dictGet_singleton]]
        rw [ih, dictGet_cons, if_neg hk]
      · rw [show ((k', l') :: rest).filter (fun q => (dictGet [(kAll, a)] q.1).isNone)
              = (k', l') :: rest.filter (fun q => (dictGet [(kAll, a)] q.1).isNone) from by
            simp [List.filter_cons, dictGet_singleton, hka]]
        rw [dictGet_cons, dictGet_cons, ih]

theorem dictGet_merge_singleton (kAll : String) (a : List α) (oth : CapStrengths α)
    (k : String) :
    dictGet (pyDictMerge [(kAll, a)] oth) k
      = if kAll = k then some ((dictGet oth kAll).getD a) else dictGet oth k := by
  unfold pyDictMerge
  rw [show ([(kAll, a)].map (fun q => (q.1, (dictGet oth q.1).getD q.2)))
        = [(kAll, (dictGet oth kAll).getD a)] from rfl]
  by_cases hk : kAll = k
  · subst hk
    rw [show ((kAll, (dictGet oth kAll).getD a) :: [])
          ++ oth.filter (fun q => (dictGet [(kAll, a)] q.1).isNone)
        = (kAll, (dictGet oth kAll).getD a)
          :: oth.filter (fun q => (dictGet [(kAll, a)] q.1).isNone) from rfl]
    rw [dictGet_cons, if_pos rfl, if_pos rfl]
  · rw [show ((kAll, (dictGet oth kAll).getD a) :: [])
          ++ oth.filter (fun q => (dictGet [(kAll, a)] q.1).isNone)
        = (kAll, (dictGet oth kAll).getD a)
          :: oth.filter (fun q => (dictGet [(kAll, a)] q.1).isNone) from rfl]
    rw [dictGet_cons, if_neg hk, if_neg hk, dictGet_filter_singleton _ _ _ _ hk]

omit [DecidableEq α] in
theorem mem_merge_singleton_of_ne (kAll : String) (a : List α)
    (oth : CapStrengths α) (q : String × List α)
    (hq : q ∈ pyDictMerge [(kAll, a)] oth) (hne : q.1 ≠ kAll) : q ∈ oth := by
  unfold pyDictMerge at hq
  rw [List.mem_append] at hq
  rcases hq with hq1 | hq2
  · exfalso
    simp only [List.map_cons, List.map_nil, List.mem_singleton] at hq1
    exact hne (congrArg Prod.fst hq1)
  · exact List.mem_filter.mp hq2 |>.1

/-! ### Key uniqueness and deduplicated folds -/

theorem eq_of_mem_of_nodup_keys {β : Type} (l : List (String × β))
    (hnd : (l.map Prod.fst).Nodup) :
    ∀ a ∈ l, ∀ b ∈ l, a.1 = b.1 → a = b := by
  induction l with
  | nil => intro a ha; exact absurd ha (List.not_mem_nil a)
  | cons p rest ih =>
      intro a ha b hb hab
      rw [List.map_cons, List.nodup_cons] at hnd
      rcases List.mem_cons.mp ha with rfl | ha'
      · rcases List.mem_cons.mp hb with rfl | hb'
        · rfl
        · exact absurd (hab ▸ List.mem_map_of_mem Prod.fst hb') hnd.1
      · rcases List.mem_cons.mp hb with rfl | hb'
        · exact absurd (hab ▸ List.mem_map_of_mem Prod.fst ha') hnd.1
        · exact ih hnd.2 a ha' b hb' hab

theorem foldl_addIfAbsent_of_nodup (rs : List α) :
    ∀ acc : List α, (acc ++ rs).Nodup → rs.foldl addIfAbsent acc = acc ++ rs := by
  induction rs with
  | nil => intro acc _; simp
  | cons r rs ih =>
      intro acc h
      have hr : r ∉ acc := by
        intro hmem
        exact (List.disjoint_of_nodup_append h) hmem (List.mem_cons_self _ _)
      rw [List.foldl_cons]
      rw [show addIfAbsent acc r = acc ++ [r] from by simp [addIfAbsent, hr]]
      have h' : ((acc ++ [r]) ++ rs).Nodup := by
        rw [List.append_assoc]
        exact h
      rw [ih (acc ++ [r]) h', List.append_assoc]
      rfl

theorem foldRecords_always_shared (cap : CapStrengths α) (i_sym : String)
    (rs : List α) (hs : ∀ x ∈ rs, sharedB cap i_sym x = true) :
    ∀ (l : List α) (o : CapStrengths α),
      rs.foldl (recordStep cap i_sym) (l, o) = (rs.foldl addIfAbsent l, o) := by
  induction rs with
  | nil => intro l o; rfl
  | cons r rs ih =>
      intro l o
      rw [List.foldl_cons, List.foldl_cons, recordStep_eq]
      dsimp only
      rw [if_pos (hs r (List.mem_cons_self _ _))]
      have step : (if sharedB cap i_sym r = true ∧ r ∉ l then l ++ [r] else l)
          = addIfAbsent l r := by
        rw [addIfAbsent]
        by_cases hin : r ∈ l
        · rw [if_neg (by simp [hin]), if_pos hin]
        · rw [if_pos ⟨hs r (List.mem_cons_self _ _), hin⟩, if_neg hin]
      rw [step]
      exact ih (fun x hx => hs x (List.mem_cons_of_mem _ hx)) _ _

/-! ### The grouped output's buckets -/

theorem group_eq (cap : CapStrengths α) (mult : String) :
    group_cap_strengths_by_sym cap mult
      = pyDictMerge [(mult ++ "ALL", (groupPass cap).1)] (groupPass cap).2 := rfl

theorem dictGet_groupPass_all_none (cap : CapStrengths α) (p : String)
    (hne : ∀ q ∈ cap, q.1 ≠ p ++ "ALL") :
    dictGet (groupPass cap).2 (p ++ "ALL") = none := by
  rw [groupPass_eq_foldl, dictGet_symFold_notmem cap cap ([], [])]
  · rfl
  · intro hmem
    obtain ⟨q, hq, hq1⟩ := List.mem_map.mp hmem
    exact hne q hq hq1

theorem bucketOf_group_all_eq (cap : CapStrengths α) (p : String)
    (hne : ∀ q ∈ cap, q.1 ≠ p ++ "ALL") :
    bucketOf (group_cap_strengths_by_sym cap p) (p ++ "ALL") = (groupPass cap).1 := by
  unfold bucketOf
  rw [group_eq, dictGet_merge_singleton, if_pos rfl, dictGet_groupPass_all_none cap p hne]
  rfl

theorem bucketOf_group_other_eq (cap : CapStrengths α) (p : String) (k : String)
    (hk : k ≠ p ++ "ALL") :
    bucketOf (group_cap_strengths_by_sym cap p) k = bucketOf (groupPass cap).2 k := by
  unfold bucketOf
  rw [group_eq, dictGet_merge_singleton, if_neg (fun h => hk h.symm)]

theorem mem_all_of_shared (cap : CapStrengths α)
    (hnd : (cap.map Prod.fst).Nodup) (q : String × List α) (hq : q ∈ cap)
    (x : α) (hx : x ∈ q.2) (hS : sharedB cap q.1 x = true) :
    ∀ q0 ∈ cap, x ∈ q0.2 := by
  intro q0 hq0
  rcases (sharedB_eq_true_iff cap q.1 x).mp hS q0 hq0 with hk | hm
  · exact (eq_of_mem_of_nodup_keys cap hnd q0 hq0 q hq hk) ▸ hx
  · exact hm

/-! ### Claim theorems for the grouping operation -/

/-- C3 counterexample: on the input `{"1ALL": [r1], "1A1": [r2]}` (a key
literally equal to the synthetic `"1ALL"` key), the `|` merge lets the
collided other-bucket overwrite the synthetic bucket, so `r1` sits in the
output's `"1ALL"` bucket although it does not appear in the other
symmetry `"1A1"`'s record list — refuting the claim's "exactly when". -/
theorem group_all_key_collision_cex :
    group_cap_strengths_by_sym
        [("1ALL", [["1e-3", "2e-3"]]), ("1A1", [["9e-4", "0"]])] "1"
        = [("1ALL", [["1e-3", "2e-3"]]), ("1A1", [["9e-4", "0"]])]
      ∧ (["1e-3", "2e-3"] : List String)
          ∈ bucketOf
              (group_cap_strengths_by_sym
                [("1ALL", [["1e-3", "2e-3"]]), ("1A1", [["9e-4", "0"]])] "1")
              ("1" ++ "ALL")
      ∧ (["1e-3", "2e-3"] : List String) ∉ [[("9e-4" : String), "0"]] := by
  refine ⟨by decide, by decide, by decide⟩

/-- C3 (amended: no input key equals `"{prefix}ALL"`): a record reaches
the synthetic `"{prefix}ALL"` bucket exactly when it appears in every
symmetry's record list (equivalently, in every *other* symmetry's list),
a record not so shared stays in the bucket of its own symmetry, the
two-key example from the spec produces exactly
`{"1ALL": [[1e-3,2e-3]], "1A1": [[9e-4,0]]}`, and the empty input yields
`{"{prefix}ALL": []}`. -/
theorem group_shared_routing :
    (∀ {α : Type} [DecidableEq α] (cap : CapStrengths α) (p : String),
        (cap.map Prod.fst).Nodup →
        (∀ q ∈ cap, q.1 ≠ p ++ "ALL") →
        (∀ r : α,
            r ∈ bucketOf (group_cap_strengths_by_sym cap p) (p ++ "ALL")
              ↔ (cap ≠ [] ∧ ∀ q ∈ cap, r ∈ q.2))
          ∧ (∀ q ∈ cap, ∀ r ∈ q.2,
              ¬ (∀ q' ∈ cap, q'.1 = q.1 ∨ r ∈ q'.2) →
              r ∈ bucketOf (group_cap_strengths_by_sym cap p) q.1))
      ∧ group_cap_strengths_by_sym
          [("1A1", [["1e-3", "2e-3"], ["9e-4", "0"]]), ("1B1", [["1e-3", "2e-3"]])] "1"
          = [("1ALL", [["1e-3", "2e-3"]]), ("1A1", [["9e-4", "0"]])]
      ∧ ∀ {β : Type} [DecidableEq β] (p : String),
          group_cap_strengths_by_sym ([] : CapStrengths β) p = [(p ++ "ALL", [])] := by
  refine ⟨?_, by decide, ?_⟩
  · intro α inst cap p hnd hne
    constructor
    · intro r
      rw [bucketOf_group_all_eq cap p hne, groupPass_eq_foldl, mem_fst_symFold]
      simp only [List.not_mem_nil, false_or]
      constructor
      · rintro ⟨q, hq, hx, hS⟩
        exact ⟨List.ne_nil_of_mem hq, mem_all_of_shared cap hnd q hq r hx hS⟩
      · rintro ⟨hne', hall'⟩
        cases cap with
        | nil => exact absurd rfl hne'
        | cons q0 rest =>
            refine ⟨q0, List.mem_cons_self _ _, hall' q0 (List.mem_cons_self _ _), ?_⟩
            rw [sharedB_eq_true_iff]
            intro q hq
            exact Or.inr (hall' q hq)
    · intro q hq r hr hns
      have hSf : sharedB cap q.1 r = false := by
        rcases Bool.eq_false_or_eq_true (sharedB cap q.1 r) with h | h
        · exact absurd ((sharedB_eq_true_iff cap q.1 r).mp h) hns
        · exact h
      rw [bucketOf_group_other_eq cap p q.1 (hne q hq), groupPass_eq_foldl,
        mem_bucket_symFold]
      refine Or.inr ⟨q.2, ?_, hr, hSf⟩
      exact Prod.mk.eta ▸ hq
  · intro β inst p
    rfl

/-- Witness for C3 applying the amended general part to the spec's
two-key example at the shared record. -/
theorem group_shared_routing_witness :
    (["1e-3", "2e-3"] : List String)
        ∈ bucketOf
            (group_cap_strengths_by_sym
              [("1A1", [["1e-3", "2e-3"], ["9e-4", "0"]]), ("1B1", [["1e-3", "2e-3"]])]
              "1")
            ("1" ++ "ALL")
      ↔ (([("1A1", [["1e-3", "2e-3"], ["9e-4", "0"]]),
            ("1B1", [["1e-3", "2e-3"]])] : CapStrengths (List String)) ≠ []
          ∧ ∀ q ∈ ([("1A1", [["1e-3", "2e-3"], ["9e-4", "0"]]),
                     ("1B1", [["1e-3", "2e-3"]])] : CapStrengths (List String)),
              (["1e-3", "2e-3"] : List String) ∈ q.2) :=
  (group_shared_routing.1 _ "1" (by decide) (by decide)).1 _

/-- C10: when no input key equals `"{prefix}ALL"`, the output routes each
record value to exactly one side: nothing in the synthetic `ALL` bucket
also appears in a per-symmetry bucket of the output, and conversely. -/
theorem group_buckets_disjoint :
    ∀ {α : Type} [DecidableEq α] (cap : CapStrengths α) (p : String),
      (cap.map Prod.fst).Nodup →
      (∀ q ∈ cap, q.1 ≠ p ++ "ALL") →
      ∀ (r : α) (q : String × List α), q ∈ group_cap_strengths_by_sym cap p →
        q.1 ≠ p ++ "ALL" →
        ¬ (r ∈ bucketOf (group_cap_strengths_by_sym cap p) (p ++ "ALL") ∧ r ∈ q.2) := by
  intro α inst cap p hnd hne r q hq hq1 hboth
  obtain ⟨hrALL, hrq⟩ := hboth
  rw [bucketOf_group_all_eq cap p hne, groupPass_eq_foldl, mem_fst_symFold] at hrALL
  simp only [List.not_mem_nil, false_or] at hrALL
  obtain ⟨q', hq', hx', hS'⟩ := hrALL
  have hall' : ∀ q0 ∈ cap, r ∈ q0.2 := mem_all_of_shared cap hnd q' hq' r hx' hS'
  have hqoth : q ∈ (groupPass cap).2 := by
    rw [group_eq] at hq
    exact mem_merge_singleton_of_ne _ _ _ q hq hq1
  have hfalse : sharedB cap q.1 r = false := by
    refine pairs_symFold_not_shared cap cap ([], []) ?_ q.1 q.2 ?_ r hrq
    · intro k l h
      exact absurd h (List.not_mem_nil _)
    · rw [← groupPass_eq_foldl]
      exact Prod.mk.eta ▸ hqoth
  have htrue : sharedB cap q.1 r = true := by
    rw [sharedB_eq_true_iff]
    intro q0 hq0
    exact Or.inr (hall' q0 hq0)
  rw [htrue] at hfalse
  cases hfalse

/-- Witness for C10 at a concrete two-key input. -/
theorem group_buckets_disjoint_witness :
    ¬ ((["a"] : List String)
          ∈ bucketOf
              (group_cap_strengths_by_sym
                [("1A1", [["a"]]), ("1B1", [["b"]])] "1") ("1" ++ "ALL")
        ∧ (["a"] : List String) ∈ [[("a" : String)]]) :=
  group_buckets_disjoint [("1A1", [["a"]]), ("1B1", [["b"]])] "1"
    (by decide) (by decide) ["a"] ("1A1", [["a"]]) (by decide) (by decide)

/-- C6: regrouping the single-key mapping `{"{p}ALL": r}`, where `r` is
the `ALL` bucket of a previous grouping, returns `r` unchanged in its
`"{p}ALL"` bucket (the previous pass deduplicated, and a single-key input
classifies every record as shared). -/
theorem group_idempotent_on_all_bucket :
    ∀ {α : Type} [DecidableEq α] (cap : CapStrengths α) (p : String),
      bucketOf
          (group_cap_strengths_by_sym
            [(p ++ "ALL", bucketOf (group_cap_strengths_by_sym cap p) (p ++ "ALL"))] p)
          (p ++ "ALL")
        = bucketOf (group_cap_strengths_by_sym cap p) (p ++ "ALL") := by
  intro α inst cap p
  have hvnd : (bucketOf (group_cap_strengths_by_sym cap p) (p ++ "ALL")).Nodup := by
    unfold bucketOf
    rw [group_eq, dictGet_merge_singleton, if_pos rfl]
    cases hd : dictGet (groupPass cap).2 (p ++ "ALL") with
    | none =>
        show ((groupPass cap).1).Nodup
        rw [groupPass_eq_foldl]
        exact nodup_fst_symFold cap cap ([], []) List.nodup_nil
    | some w =>
        show w.Nodup
        have hw : bucketOf (groupPass cap).2 (p ++ "ALL") = w := by
          unfold bucketOf
          rw [hd]
          rfl
        rw [← hw, groupPass_eq_foldl]
        exact nodup_bucket_symFold cap cap ([], []) (fun _ => List.nodup_nil) _
  generalize hv : bucketOf (group_cap_strengths_by_sym cap p) (p ++ "ALL") = v at hvnd ⊢
  have hsh : ∀ x ∈ v, sharedB [(p ++ "ALL", v)] (p ++ "ALL") x = true := by
    intro x _
    rw [sharedB_eq_true_iff]
    intro q hq
    rcases List.mem_singleton.mp hq with rfl
    exact Or.inl rfl
  have hpass : groupPass [(p ++ "ALL", v)] = (v, []) := by
    rw [groupPass_eq_foldl]
    show symStep [(p ++ "ALL", v)] ([], []) (p ++ "ALL", v) = (v, [])
    unfold symStep
    dsimp only
    rw [foldRecords_always_shared _ _ _ hsh]
    rw [foldl_addIfAbsent_of_nodup v [] (by simpa using hvnd)]
    simp
  unfold bucketOf
  rw [group_eq, hpass, dictGet_merge_singleton, if_pos rfl]
  rfl

/-! ### CAP-strength extraction from file paths
(`TimeIndependentNotebook.get_cap_strengths`, the per-path step)

The per-path pipeline of the source: skip the path when it contains one
of five literal substrings, run
`re.search(r'zH_Fullc_Fullc_eval([-+]?\d*\.\d+D[-+]?\d+)-([-+]?\d*\.\d+D[-+]?\d+)', path)`,
and convert each captured group with `float(group.replace('D', 'e'))`.
The regex is deterministic here (each greedy sub-pattern is followed by a
disjoint character class, so backtracking never changes the outcome), so
it is modelled by a greedy matcher tried at every start position, exactly
like `re.search`.  `float` is modelled by exact rationals. -/

/-- The literal substrings that exclude a path before pattern matching. -/
def excludedSubstrings : List String :=
  ["MinImag", "MaxImag", "MinReal", "MaxReal", "cropped"]

/-- Whether `needle` starts the list `hay`. -/
def leadsWith : List Char → List Char → Bool
  | [], _ => true
  | _ :: _, [] => false
  | a :: as, b :: bs => a = b && leadsWith as bs

/-- Python `needle in hay` (substring containment). -/
def containsSub (needle : List Char) : List Char → Bool
  | [] => needle.isEmpty
  | c :: t => leadsWith needle (c :: t) || containsSub needle t

/-- The literal part of the extraction pattern. -/
def evalMarker : List Char := "zH_Fullc_Fullc_eval".data

/-- The optional `[-+]?` sign of the numeric sub-pattern. -/
def stripSign (cs : List Char) : List Char × List Char :=
  match cs with
  | c :: rest => if c = '-' ∨ c = '+' then ([c], rest) else ([], cs)
  | [] => ([], [])

/-- Consume one expected literal character. -/
def expectChar (c : Char) (cs : List Char) : Option (List Char) :=
  match cs with
  | c' :: rest => if c' = c then some rest else none
  | [] => none

/-- Greedy match of `[-+]?\d*\.\d+D[-+]?\d+`, returning the matched
characters and the remainder. -/
def matchNumber (cs : List Char) : Option (List Char × List Char) :=
  let s1 := stripSign cs
  let ip := s1.2.takeWhile Char.isDigit
  match expectChar '.' (s1.2.dropWhile Char.isDigit) with
  | none => none
  | some cs3 =>
      let frac := cs3.takeWhile Char.isDigit
      if frac.isEmpty then none
      else
        match expectChar 'D' (cs3.dropWhile Char.isDigit) with
        | none => none
        | some cs5 =>
            let s2 := stripSign cs5
            let ex := s2.2.takeWhile Char.isDigit
            if ex.isEmpty then none
            else
              some (s1.1 ++ ip ++ '.' :: frac ++ 'D' :: s2.1 ++ ex,
                s2.2.dropWhile Char.isDigit)

/-- The two captured groups `<A>-<B>` after the literal marker. -/
def matchTwoNumbers (cs : List Char) : Option (List Char × List Char) :=
  match matchNumber cs with
  | none => none
  | some (g1, rest1) =>
      match expectChar '-' rest1 with
      | none => none
      | some rest2 =>
          match matchNumber rest2 with
          | none => none
          | some (g2, _) => some (g1, g2)

/-- `re.search` for the extraction pattern: try every start position from
the left; succeed where the literal marker is followed by the two-number
tail. -/
def searchEval : List Char → Option (List Char × List Char)
  | [] => none
  | c :: rest =>
      match
        (if leadsWith evalMarker (c :: rest) then
          matchTwoNumbers (List.drop evalMarker.length (c :: rest))
        else none) with
      | some gs => some gs
      | none => searchEval rest

/-- Decimal digits to a natural number. -/
def digitsToNat (ds : List Char) : Nat :=
  ds.foldl (fun n c => 10 * n + (c.toNat - 48)) 0

/-- `float(group.replace('D', 'e'))` on a captured group, as an exact
rational: sign times `ip.frac` times ten to the signed exponent. -/
def dNumberToRat (g : List Char) : Option Rat :=
  let s1 := stripSign g
  let ip := s1.2.takeWhile Char.isDigit
  match expectChar '.' (s1.2.dropWhile Char.isDigit) with
  | none => none
  | some g3 =>
      let frac := g3.takeWhile Char.isDigit
      if frac.isEmpty then none
      else
        match expectChar 'D' (g3.dropWhile Char.isDigit) with
        | none => none
        | some g5 =>
            let s2 := stripSign g5
            let ex := s2.2.takeWhile Char.isDigit
            if ex.isEmpty ∨ ¬ (s2.2.dropWhile Char.isDigit).isEmpty then none
            else
              some ((if s1.1 = ['-'] then -1 else 1)
                * ((digitsToNat (ip ++ frac) : Rat) / (10 : Rat) ^ frac.length)
                * (10 : Rat) ^ ((if s2.1 = ['-'] then -1 else 1) * (digitsToNat ex : Int)))

/-- One path's processing inside `get_cap_strengths` (numeric branch):
exclusion filtering, pattern search, numeric conversion of both groups. -/
def get_cap_strength_of_path (path : String) : Option (Rat × Rat) :=
  if excludedSubstrings.any (fun s => containsSub s.data path.data) then none
  else
    match searchEval path.data with
    | none => none
    | some (g1, g2) =>
        match dNumberToRat g1, dNumberToRat g2 with
        | some a, some b => some (a, b)
        | _, _ => none

example :
    searchEval "store/CloseCoupling/1A1/Full/zH_Fullc_Fullc_eval1.0D-02-2.0D-03".data
      = some ("1.0D-02".data, "2.0D-03".data) := by decide

example :
    get_cap_strength_of_path
      "store/cropped/zH_Fullc_Fullc_eval1.0D-02-2.0D-03" = none := by decide

/-! ### The well-formed `D`-notation numerals of the pattern -/

/-- A numeral matched by `[-+]?\d*\.\d+D[-+]?\d+`, by components. -/
structure DNum where
  sign : List Char
  ip : List Char
  frac : List Char
  esign : List Char
  ex : List Char

/-- Well-formedness: optional signs, digit runs, non-empty fraction and
exponent — exactly the shapes the regex sub-pattern accepts. -/
def DNum.wf (d : DNum) : Prop :=
  (d.sign = [] ∨ d.sign = ['-'] ∨ d.sign = ['+'])
    ∧ (∀ c ∈ d.ip, c.isDigit = true)
    ∧ d.frac ≠ [] ∧ (∀ c ∈ d.frac, c.isDigit = true)
    ∧ (d.esign = [] ∨ d.esign = ['-'] ∨ d.esign = ['+'])
    ∧ d.ex ≠ [] ∧ (∀ c ∈ d.ex, c.isDigit = true)

instance (d : DNum) : Decidable d.wf := by
  unfold DNum.wf
  infer_instance

/-- The numeral's concrete spelling. -/
def DNum.render (d : DNum) : List Char :=
  d.sign ++ d.ip ++ '.' :: d.frac ++ 'D' :: d.esign ++ d.ex

/-- The numeral's value after `D` → `e` replacement: the value of the
decimal scientific numeral `sign ip.frac e esign ex`. -/
def DNum.value (d : DNum) : Rat :=
  (if d.sign = ['-'] then -1 else 1)
    * ((digitsToNat (d.ip ++ d.frac) : Rat) / (10 : Rat) ^ d.frac.length)
    * (10 : Rat) ^ ((if d.esign = ['-'] then -1 else 1) * (digitsToNat d.ex : Int))

theorem leadsWith_append (as bs : List Char) : leadsWith as (as ++ bs) = true := by
  induction as with
  | nil => rfl
  | cons a as ih => simp [leadsWith, ih]

theorem digit_not_sign (c : Char) (h : c.isDigit = true) : ¬(c = '-' ∨ c = '+') := by
  rintro (rfl | rfl) <;> exact absurd h (by decide)

theorem stripSign_nosign (cs : List Char)
    (h : ∀ c, cs.head? = some c → ¬(c = '-' ∨ c = '+')) : stripSign cs = ([], cs) := by
  cases cs with
  | nil => rfl
  | cons c t =>
      show (if c = '-' ∨ c = '+' then ([c], t) else ([], c :: t)) = ([], c :: t)
      rw [if_neg (h c rfl)]

theorem stripSign_front (sgn tail1 : List Char)
    (hs : sgn = [] ∨ sgn = ['-'] ∨ sgn = ['+'])
    (htail : ∀ c, tail1.head? = some c → ¬(c = '-' ∨ c = '+')) :
    stripSign (sgn ++ tail1) = (sgn, tail1) := by
  rcases hs with rfl | rfl | rfl
  · rw [List.nil_append, stripSign_nosign tail1 htail]
  · show (if '-' = '-' ∨ '-' = '+' then (['-'], tail1) else ([], '-' :: tail1))
      = (['-'], tail1)
    rw [if_pos (Or.inl rfl)]
  · show (if '+' = '-' ∨ '+' = '+' then (['+'], tail1) else ([], '+' :: tail1))
      = (['+'], tail1)
    rw [if_pos (Or.inr rfl)]

theorem takeWhile_digits_append (ds rest : List Char)
    (hds : ∀ c ∈ ds, c.isDigit = true)
    (hrest : ∀ c, rest.head? = some c → c.isDigit = false) :
    (ds ++ rest).takeWhile Char.isDigit = ds
      ∧ (ds ++ rest).dropWhile Char.isDigit = rest := by
  induction ds with
  | nil =>
      rw [List.nil_append]
      cases rest with
      | nil => exact ⟨rfl, rfl⟩
      | cons c t =>
          have hc := hrest c rfl
          exact ⟨by simp [List.takeWhile_cons, hc], by simp [List.dropWhile_cons, hc]⟩
  | cons d ds ih =>
      have hd := hds d (List.mem_cons_self _ _)
      have ih' := ih (fun c hc => hds c (List.mem_cons_of_mem _ hc))
      rw [List.cons_append]
      refine ⟨?_, ?_⟩
      · rw [List.takeWhile_cons, if_pos (by simp [hd]), ih'.1]
      · rw [List.dropWhile_cons, if_pos (by simp [hd]), ih'.2]

theorem isEmpty_false_of_ne_nil {l : List Char} (h : l ≠ []) : l.isEmpty = false := by
  cases l with
  | nil => exact absurd rfl h
  | cons c t => rfl

theorem expectChar_cons_self (c : Char) (rest : List Char) :
    expectChar c (c :: rest) = some rest := by
  show (if c = c then some rest else none) = some rest
  rw [if_pos rfl]

theorem matchNumber_render (d : DNum) (hwf : d.wf) (rest : List Char)
    (hrest : ∀ c, rest.head? = some c → c.isDigit = false) :
    matchNumber (d.render ++ rest) = some (d.render, rest) := by
  obtain ⟨hsign, hip, hfracne, hfrac, hesign, hexne, hex⟩ := hwf
  have hassoc : d.render ++ rest
      = d.sign ++ (d.ip ++ '.' :: (d.frac ++ 'D' :: (d.esign ++ (d.ex ++ rest)))) := by
    simp [DNum.render]
  have htail1 : ∀ c,
      (d.ip ++ '.' :: (d.frac ++ 'D' :: (d.esign ++ (d.ex ++ rest)))).head? = some c →
        ¬(c = '-' ∨ c = '+') := by
    cases hip0 : d.ip with
    | nil =>
        intro c hc
        rw [List.nil_append] at hc
        cases hc
        decide
    | cons c0 t0 =>
        intro c hc
        rw [List.cons_append] at hc
        cases hc
        exact digit_not_sign c0 (hip c0 (by rw [hip0]; exact List.mem_cons_self _ _))
  have hstrip1 : stripSign (d.render ++ rest)
      = (d.sign, d.ip ++ '.' :: (d.frac ++ 'D' :: (d.esign ++ (d.ex ++ rest)))) := by
    rw [hassoc]
    exact stripSign_front _ _ hsign htail1
  have htake1 := takeWhile_digits_append d.ip
    ('.' :: (d.frac ++ 'D' :: (d.esign ++ (d.ex ++ rest)))) hip
    (by intro c hc; cases hc; decide)
  have htake2 := takeWhile_digits_append d.frac ('D' :: (d.esign ++ (d.ex ++ rest)))
    hfrac (by intro c hc; cases hc; decide)
  have hstrip2 : stripSign (d.esign ++ (d.ex ++ rest)) = (d.esign, d.ex ++ rest) := by
    refine stripSign_front _ _ hesign ?_
    cases hex0 : d.ex with
    | nil => exact absurd hex0 hexne
    | cons c0 t0 =>
        intro c hc
        rw [List.cons_append] at hc
        cases hc
        exact digit_not_sign c0 (hex c0 (by rw [hex0]; exact List.mem_cons_self _ _))
  have htake3 := takeWhile_digits_append d.ex rest hex hrest
  have hfr : d.frac.isEmpty = false := isEmpty_false_of_ne_nil hfracne
  have hexe : d.ex.isEmpty = false := isEmpty_false_of_ne_nil hexne
  simp only [matchNumber]
  rw [hstrip1]
  dsimp only
  rw [htake1.2, expectChar_cons_self]
  dsimp only
  rw [htake2.1, htake2.2, hfr]
  rw [if_neg (show ¬(false = true) from by decide)]
  rw [expectChar_cons_self]
  dsimp only
  rw [hstrip2]
  dsimp only
  rw [htake3.1, hexe]
  rw [if_neg (show ¬(false = true) from by decide)]
  rw [htake3.2, htake1.1]
  rfl

theorem matchNumber_render_nil (d : DNum) (hwf : d.wf) :
    matchNumber d.render = some (d.render, []) := by
  have h := matchNumber_render d hwf [] (by intro c hc; cases hc)
  rwa [List.append_nil] at h

theorem matchTwoNumbers_render (a b : DNum) (ha : a.wf) (hb : b.wf) :
    matchTwoNumbers (a.render ++ '-' :: b.render) = some (a.render, b.render) := by
  unfold matchTwoNumbers
  rw [matchNumber_render a ha ('-' :: b.render) (by intro c hc; cases hc; decide)]
  dsimp only
  rw [expectChar_cons_self]
  dsimp only
  rw [matchNumber_render_nil b hb]

theorem dNumberToRat_render (d : DNum) (hwf : d.wf) :
    dNumberToRat d.render = some d.value := by
  obtain ⟨hsign, hip, hfracne, hfrac, hesign, hexne, hex⟩ := hwf
  have htail1 : ∀ c,
      (d.ip ++ '.' :: (d.frac ++ 'D' :: (d.esign ++ d.ex))).head? = some c →
        ¬(c = '-' ∨ c = '+') := by
    cases hip0 : d.ip with
    | nil =>
        intro c hc
        rw [List.nil_append] at hc
        cases hc
        decide
    | cons c0 t0 =>
        intro c hc
        rw [List.cons_append] at hc
        cases hc
        exact digit_not_sign c0 (hip c0 (by rw [hip0]; exact List.mem_cons_self _ _))
  have hstrip1 : stripSign d.render
      = (d.sign, d.ip ++ '.' :: (d.frac ++ 'D' :: (d.esign ++ d.ex))) := by
    rw [show d.render = d.sign ++ (d.ip ++ '.' :: (d.frac ++ 'D' :: (d.esign ++ d.ex)))
      from by simp [DNum.render]]
    exact stripSign_front _ _ hsign htail1
  have htake1 := takeWhile_digits_append d.ip ('.' :: (d.frac ++ 'D' :: (d.esign ++ d.ex)))
    hip (by intro c hc; cases hc; decide)
  have htake2 := takeWhile_digits_append d.frac ('D' :: (d.esign ++ d.ex)) hfrac
    (by intro c hc; cases hc; decide)
  have hstrip2 : stripSign (d.esign ++ d.ex) = (d.esign, d.ex) := by
    refine stripSign_front _ _ hesign ?_
    cases hex0 : d.ex with
    | nil => exact absurd hex0 hexne
    | cons c0 t0 =>
        intro c hc
        cases hc
        exact digit_not_sign c0 (hex c0 (by rw [hex0]; exact List.mem_cons_self _ _))
  have htk3 : d.ex.takeWhile Char.isDigit = d.ex := by
    have h := (takeWhile_digits_append d.ex [] hex (by intro c hc; cases hc)).1
    rwa [List.append_nil] at h
  have hdr3 : d.ex.dropWhile Char.isDigit = [] := by
    have h := (takeWhile_digits_append d.ex [] hex (by intro c hc; cases hc)).2
    rwa [List.append_nil] at h
  have hfr : d.frac.isEmpty = false := isEmpty_false_of_ne_nil hfracne
  have hexe : d.ex.isEmpty = false := isEmpty_false_of_ne_nil hexne
  simp only [dNumberToRat]
  rw [hstrip1]
  dsimp only
  rw [htake1.2, expectChar_cons_self]
  dsimp only
  rw [htake2.1, htake2.2, hfr]
  rw [if_neg (show ¬(false = true) from by decide)]
  rw [expectChar_cons_self]
  dsimp only
  rw [hstrip2]
  dsimp only
  rw [htk3, hdr3, hexe]
  rw [if_neg (show ¬(false = true ∨ ¬(List.isEmpty [] = true)) from by decide)]
  rw [htake1.1]
  rfl

theorem searchEval_cons (c : Char) (rest : List Char) :
    searchEval (c :: rest)
      = match
          (if leadsWith evalMarker (c :: rest) then
            matchTwoNumbers (List.drop evalMarker.length (c :: rest))
          else none) with
        | some gs => some gs
        | none => searchEval rest := rfl

theorem searchEval_head_match (cs : List Char) (g : List Char × List Char)
    (h1 : leadsWith evalMarker cs = true)
    (h2 : matchTwoNumbers (List.drop evalMarker.length cs) = some g)
    (hne : cs ≠ []) : searchEval cs = some g := by
  cases cs with
  | nil => exact absurd rfl hne
  | cons c rest =>
      rw [searchEval_cons, h1, if_pos rfl, h2]

theorem searchEval_of_marker (dir tail : List Char) (g : List Char × List Char)
    (hnm : ∀ i, i < dir.length →
      leadsWith evalMarker ((dir ++ (evalMarker ++ tail)).drop i) = false)
    (hm : matchTwoNumbers tail = some g) :
    searchEval (dir ++ (evalMarker ++ tail)) = some g := by
  induction dir with
  | nil =>
      rw [List.nil_append]
      refine searchEval_head_match _ g (leadsWith_append _ _) ?_ (by simp [evalMarker])
      rw [List.drop_left]
      exact hm
  | cons c dir ih =>
      have h0 := hnm 0 (by simp)
      rw [List.drop_zero, List.cons_append] at h0
      rw [List.cons_append, searchEval_cons, h0]
      rw [if_neg (show ¬(false = true) from by decide)]
      dsimp only
      refine ih ?_
      intro i hi
      have h := hnm (i + 1) (by simp; omega)
      rwa [List.cons_append, List.drop_succ_cons] at h

/-- C5: a path containing one of the five excluded literal substrings is
skipped before pattern matching no matter what else it contains; the
spec's example path parses to the numeric pair `(1.0e-02, 2.0e-03)`; and
in general a path whose final segment is the literal marker followed by
two well-formed `D`-notation numerals (with the marker not occurring
earlier in the path and no excluded substring present) parses to exactly
the two numerals' values after `D` → `e` replacement. -/
theorem cap_strength_extraction :
    (∀ path : String,
        (∃ s ∈ excludedSubstrings, containsSub s.data path.data = true) →
        get_cap_strength_of_path path = none)
      ∧ get_cap_strength_of_path
          "store/CloseCoupling/1A1/Full/zH_Fullc_Fullc_eval1.0D-02-2.0D-03"
          = some (1 / 100, 1 / 500)
      ∧ (∀ (dir : List Char) (a b : DNum), a.wf → b.wf →
          (∀ s ∈ excludedSubstrings,
            containsSub s.data
              (dir ++ (evalMarker ++ (a.render ++ '-' :: b.render))) = false) →
          (∀ i, i < dir.length →
            leadsWith evalMarker
              ((dir ++ (evalMarker ++ (a.render ++ '-' :: b.render))).drop i) = false) →
          get_cap_strength_of_path
              (String.mk (dir ++ (evalMarker ++ (a.render ++ '-' :: b.render))))
            = some (a.value, b.value)) := by
  have hgen : ∀ (dir : List Char) (a b : DNum), a.wf → b.wf →
      (∀ s ∈ excludedSubstrings,
        containsSub s.data
          (dir ++ (evalMarker ++ (a.render ++ '-' :: b.render))) = false) →
      (∀ i, i < dir.length →
        leadsWith evalMarker
          ((dir ++ (evalMarker ++ (a.render ++ '-' :: b.render))).drop i) = false) →
      get_cap_strength_of_path
          (String.mk (dir ++ (evalMarker ++ (a.render ++ '-' :: b.render))))
        = some (a.value, b.value) := by
    intro dir a b ha hb hexcl hnm
    unfold get_cap_strength_of_path
    rw [show (String.mk (dir ++ (evalMarker ++ (a.render ++ '-' :: b.render)))).data
        = dir ++ (evalMarker ++ (a.render ++ '-' :: b.render)) from rfl]
    have hno : ¬(excludedSubstrings.any
        (fun s => containsSub s.data
          (dir ++ (evalMarker ++ (a.render ++ '-' :: b.render)))) = true) := by
      intro h
      obtain ⟨s, hs, hc⟩ := List.any_eq_true.mp h
      rw [hexcl s hs] at hc
      cases hc
    rw [if_neg hno]
    rw [searchEval_of_marker dir (a.render ++ '-' :: b.render) (a.render, b.render)
      hnm (matchTwoNumbers_render a b ha hb)]
    dsimp only
    rw [dNumberToRat_render a ha, dNumberToRat_render b hb]
  refine ⟨?_, ?_, hgen⟩
  · intro path hex
    unfold get_cap_strength_of_path
    obtain ⟨s, hs, hc⟩ := hex
    rw [if_pos (List.any_eq_true.mpr ⟨s, hs, hc⟩)]
  · have h := hgen "store/CloseCoupling/1A1/Full/".data
      ⟨[], ['1'], ['0'], ['-'], ['0', '2']⟩ ⟨[], ['2'], ['0'], ['-'], ['0', '3']⟩
      (by decide) (by decide) (by decide) (by decide)
    rw [show String.mk ("store/CloseCoupling/1A1/Full/".data
          ++ (evalMarker
            ++ (DNum.render ⟨[], ['1'], ['0'], ['-'], ['0', '2']⟩
              ++ '-' :: DNum.render ⟨[], ['2'], ['0'], ['-'], ['0', '3']⟩)))
        = "store/CloseCoupling/1A1/Full/zH_Fullc_Fullc_eval1.0D-02-2.0D-03"
      from by decide] at h
    rw [h]
    have hva : DNum.value ⟨[], ['1'], ['0'], ['-'], ['0', '2']⟩ = 1 / 100 := by
      have h1 : digitsToNat (['1'] ++ ['0']) = 10 := by decide
      have h2 : digitsToNat ['0', '2'] = 2 := by decide
      simp only [DNum.value, h1, h2]
      norm_num
    have hvb : DNum.value ⟨[], ['2'], ['0'], ['-'], ['0', '3']⟩ = 1 / 500 := by
      have h1 : digitsToNat (['2'] ++ ['0']) = 20 := by decide
      have h2 : digitsToNat ['0', '3'] = 3 := by decide
      simp only [DNum.value, h1, h2]
      norm_num
    rw [hva, hvb]

/-- Witness for C5: the exclusion part applied to a `cropped` path that
does match the numeric pattern, and the general part applied to a
concrete directory and numeral pair. -/
theorem cap_strength_extraction_witness :
    get_cap_strength_of_path "a/cropped/zH_Fullc_Fullc_eval1.0D-02-2.0D-03" = none
      ∧ get_cap_strength_of_path
          (String.mk ("x/".data
            ++ (evalMarker
              ++ (DNum.render ⟨[], ['1'], ['0'], ['-'], ['0', '2']⟩
                ++ '-' :: DNum.render ⟨[], ['2'], ['0'], ['-'], ['0', '3']⟩))))
        = some ((⟨[], ['1'], ['0'], ['-'], ['0', '2']⟩ : DNum).value,
            (⟨[], ['2'], ['0'], ['-'], ['0', '3']⟩ : DNum).value) :=
  ⟨cap_strength_extraction.1 _ ⟨"cropped", by decide, by decide⟩,
   cap_strength_extraction.2.2 _ _ _ (by decide) (by decide) (by decide) (by decide)⟩

end AstraGui
